import Mathlib

/-!
# Verification of the lazy sequence-transformation library's core cursors

Shallow embedding of the two core cursors of the library
(`CartesianProductIterator`, `JoinWhereIterator` in its two generations) and
of the `ExceptIterator` comparison operators, together with theorems settling
the specification claims.

Modelling conventions:
* A wrapped C++ iterator over a sequence of length `s` is modelled as an index
  `c : Nat`; the begin iterator is index `0`, the end iterator is index `s`.
* A dimension of the cartesian product is a pair `(c, s)` = (current index,
  size); the iterator's `_begin` tuple is implicit (all zeros) and the `_end`
  tuple is the list of sizes.  States are lists ordered with dimension 0
  (the slowest dimension) first, exactly like `std::get<0>` comes first.
* `std::lldiv` truncates toward zero, which is `Int.tdiv`/`Int.tmod`.
* Fallible operations (dereference of a possibly past-the-end position)
  return `Option`.
-/

namespace LzSpec

/-! ## CartesianProductIterator (src/include/Lz/detail/iterators/CartesianProductIterator.hpp)

A state is the list of `(current index, size)` pairs, dimension 0 first.
-/

/-- State of `CartesianProductIterator`: one `(current, size)` pair per
dimension, dimension 0 (slowest) first. `_begin` is all zeros, `_end` is the
sizes. -/
abbrev CPState := List (Nat × Nat)

/-- `next<I>` (CartesianProductIterator.hpp lines 130-146), written on the
reversed dimension list: the template recursion starts at `I = N` working on
dimension `N-1` (the head of the reversed list) and carries leftward; the
`I != 1` guard means dimension 0 (the last entry of the reversed list) is
never reset to begin when it reaches its end. -/
def nextRev : CPState → CPState
  | [] => []
  | (c, s) :: rest =>
    if c + 1 = s then
      match rest with
      | [] => (c + 1, s) :: rest
      | _ :: _ => (0, s) :: nextRev rest
    else (c + 1, s) :: rest

/-- `next<sizeof...(Iterators)>()` acting on the normally ordered state. -/
def cpNext (st : CPState) : CPState := (nextRev st.reverse).reverse

/-- `checkEnd` (lines 229-233): if dimension 0's cursor equals its end, the
whole `_iterator` tuple is assigned `_end`. -/
def checkEnd (st : CPState) : CPState :=
  match st with
  | [] => []
  | (c, s) :: _ => if c = s then st.map (fun p => (p.2, p.2)) else st

/-- `increment` (lines 253-256): `next` then `checkEnd`. -/
def cpIncrement (st : CPState) : CPState := checkEnd (cpNext st)

/-- The begin cursor's `_iterator` tuple: every dimension at its begin. -/
def cpBegin (sizes : List Nat) : CPState := sizes.map (fun s => (0, s))

/-- The end cursor's `_iterator` tuple: every dimension at its end. -/
def cpEnd (sizes : List Nat) : CPState := sizes.map (fun s => (s, s))

/-- The last valid combination: every dimension at its final element. -/
def cpLast (sizes : List Nat) : CPState := sizes.map (fun s => (s - 1, s))

/-- `eq` (lines 267-269): compares the full `_iterator` tuples. -/
def cpEq (a b : CPState) : Bool := a.map Prod.fst == b.map Prod.fst

/-- `operatorPlusImpl` (lines 148-174), on the reversed dimension list:
`plusIs` starts the recursion at the last tuple index (the fastest dimension,
head of the reversed list) and recurses toward dimension 0, which receives the
final quotient with plain iterator addition.  `std::lldiv` is
`Int.tdiv`/`Int.tmod`. Out-of-range iterator arithmetic is undefined in C++;
the model clamps negative indices at 0 (`Int.toNat`). -/
def plusRev : CPState → Int → CPState
  | [], _ => []
  | (c, s) :: rest, offset =>
    match rest with
    | [] => (((c : Int) + offset).toNat, s) :: rest
    | _ :: _ =>
      let cAdj : Nat := if offset < 0 ∧ c = 0 then s else c
      let dist : Int :=
        if offset < 0 then (if c = 0 then (s : Int) else (c : Int) + 1)
        else (s : Int) - (c : Int)
      (((cAdj : Int) + offset.tmod dist).toNat, s) :: plusRev rest (offset.tdiv dist)

/-- `plusIs` (lines 262-265): `operatorPlusImpl<N-1>(n)` then `checkEnd`. -/
def cpPlusIs (st : CPState) (n : Int) : CPState := checkEnd ((plusRev st.reverse n).reverse)

/-- `distanceImpl` (lines 219-225): called on `self` with argument `c`, it
multiplies the per-dimension differences `c._iterator[i] - self._iterator[i]`
(initial value 1). -/
def distanceImpl (self c : CPState) : Int :=
  ((c.zip self).map (fun p => (p.1.1 : Int) - (p.2.1 : Int))).prod

/-- `difference` (lines 271-273): `a.difference(b) = b.distanceImpl(a)`,
i.e. the product over all dimensions of `a_i - b_i`; `a - b` in iterator
arithmetic. -/
def cpDifference (a b : CPState) : Int := distanceImpl b a

/-! Specification-side definitions used to state the claims (not translated
from the source): mixed-radix rank/unrank and the lexicographic enumeration. -/

/-- Sizes of a state. -/
def sizesOf (st : CPState) : List Nat := st.map Prod.snd

/-- A state is valid when every dimension's current index is strictly below
its size. -/
def ValidSt (st : CPState) : Prop := ∀ p ∈ st, p.1 < p.2

/-- Product of the sizes of a state. -/
def prodPairs (st : CPState) : Nat := (st.map Prod.snd).prod

/-- Little-endian mixed-radix value of a reversed state (fastest dimension
first). -/
def valRev : CPState → Nat
  | [] => 0
  | (c, s) :: rest => c + s * valRev rest

/-- Big-endian mixed-radix value of a normally ordered state (dimension 0,
the most significant digit, first). -/
def valN : CPState → Nat
  | [] => 0
  | (c, s) :: rest => c * prodPairs rest + valN rest

/-- The `k`-th tuple of the product in lexicographic order (dimension 0 the
most significant digit). -/
def unrank : List Nat → Nat → List Nat
  | [], _ => []
  | _ :: ss, k => (k / ss.prod) :: unrank ss (k % ss.prod)

/-- Lexicographic enumeration of all tuples below `sizes`, dimension `N-1`
varying fastest. -/
def allTuples : List Nat → List (List Nat)
  | [] => [[]]
  | s :: ss => (List.range s).flatMap (fun c => (allTuples ss).map (c :: ·))

/-- The state reached from the begin cursor after `k` increments. -/
def cpRun (sizes : List Nat) (k : Nat) : CPState := cpIncrement^[k] (cpBegin sizes)

/-- The list of visited tuples (current-index lists) along the first
`∏ sizes` positions of the traversal. -/
def cpTraverse (sizes : List Nat) : List (List Nat) :=
  (List.range sizes.prod).map (fun k => (cpRun sizes k).map Prod.fst)

/-! ## JoinWhereIterator, newer generation
(src/include/Lz/detail/iterators/JoinWhereIterator.hpp, serial path)

Positions into `A` and `B` are indices; `_endA = A.length`, `_endB =
B.length`, and the view hands the iterator B's begin, so `_beginB = 0`.
Keys of both selectors land in a common type `κ` compared by a boolean
strict-order function `lt` (the `<` of the C++ key types). -/

/-- State of the newer `JoinWhereIterator`: `_iterA` and `_iterB`. -/
structure JoinState where
  iterA : Nat
  iterB : Nat
deriving DecidableEq

/-- Index of the first element of `l` satisfying `p`, or `l.length`. -/
def lbCount {β : Type _} (p : β → Bool) : List β → Nat
  | [] => 0
  | b :: bs => if p b then 0 else lbCount p bs + 1

/-- `std::lower_bound(B.begin + lo, B.end, v, comp)` with
`comp b v = lt (selB b) v`, as specified by the standard on a partitioned
range: the first position `i ≥ lo` with `¬ lt (selB B[i]) v`, else `B.length`. -/
def lowerBoundFrom {β κ : Type _} (selB : β → κ) (lt : κ → κ → Bool)
    (B : List β) (lo : Nat) (v : κ) : Nat :=
  lo + lbCount (fun b => !(lt (selB b) v)) (B.drop lo)

/-- Body of `findNext` (JoinWhereIterator.hpp lines 47-89, serial branch):
`std::find_if(_iterA, _endA, λ)` where the lambda binary-searches `B` from the
current `_iterB`, keeps `_iterB` at a key-equivalent match and returns true,
or resets `_iterB` to `_beginB` (= 0) and lets `find_if` advance `a`.
The fuel is the number of remaining `A` elements inspected by `find_if`. -/
def findNextAux {α β κ : Type _} (A : List α) (B : List β) (selA : α → κ)
    (selB : β → κ) (lt : κ → κ → Bool) : Nat → Nat → Nat → JoinState
  | 0, iA, iB => ⟨iA, iB⟩
  | fuel + 1, iA, iB =>
    if h : iA < A.length then
      let toFind := selA (A.get ⟨iA, h⟩)
      let iBGoal := lowerBoundFrom selB lt B iB toFind
      if hB : iBGoal < B.length then
        if !(lt toFind (selB (B.get ⟨iBGoal, hB⟩))) then ⟨iA, iBGoal⟩
        else findNextAux A B selA selB lt fuel (iA + 1) 0
      else findNextAux A B selA selB lt fuel (iA + 1) 0
    else ⟨iA, iB⟩

/-- `findNext` on a state. -/
def findNext {α β κ : Type _} (A : List α) (B : List β) (selA : α → κ)
    (selB : β → κ) (lt : κ → κ → Bool) (st : JoinState) : JoinState :=
  findNextAux A B selA selB lt (A.length - st.iterA) st.iterA st.iterB

/-- The constructor (lines 99-121) building the begin cursor: positions start
at the begins of `A` and `B`; if either range is empty it returns before
searching, otherwise it runs `findNext`. -/
def joinInit {α β κ : Type _} (A : List α) (B : List β) (selA : α → κ)
    (selB : β → κ) (lt : κ → κ → Bool) : JoinState :=
  if A.length = 0 ∨ B.length = 0 then ⟨0, 0⟩
  else findNext A B selA selB lt ⟨0, 0⟩

/-- `increment` (lines 133-136): `++_iterB; findNext();`. -/
def joinIncrement {α β κ : Type _} (A : List α) (B : List β) (selA : α → κ)
    (selB : β → κ) (lt : κ → κ → Bool) (st : JoinState) : JoinState :=
  findNext A B selA selB lt ⟨st.iterA, st.iterB + 1⟩

/-- `dereference` (lines 125-127): `_resultSelector(*_iterA, *_iterB)`;
`none` models the undefined dereference of a past-the-end position. -/
def joinDeref {α β γ : Type _} (A : List α) (B : List β)
    (res : α → β → γ) (st : JoinState) : Option γ :=
  match A.get? st.iterA, B.get? st.iterB with
  | some a, some b => some (res a b)
  | _, _ => none

/-- `eq` (lines 138-140): compares `_iterA` only. -/
def joinEq (a b : JoinState) : Bool := a.iterA == b.iterA

/-- The end cursor, constructed from `(endA, endA, endB, endB)`: its
constructor guard returns immediately, leaving `_iterA = endA`. -/
def joinEndCursor {α β : Type _} (A : List α) (B : List β) : JoinState :=
  ⟨A.length, B.length⟩

/-- The state after `k` increments of the begin cursor. -/
def joinRun {α β κ : Type _} (A : List α) (B : List β) (selA : α → κ)
    (selB : β → κ) (lt : κ → κ → Bool) (k : Nat) : JoinState :=
  (joinIncrement A B selA selB lt)^[k] (joinInit A B selA selB lt)

/-! ## JoinWhereIterator, legacy generation
(src/include/Lz/detail/JoinWhereIterator.hpp)

Same index conventions; the extra member `_iterBFound` records the match,
and `findNext` itself advances `_iterB` past the match. -/

/-- State of the legacy `internal::JoinWhereIterator`: `_iterA`, `_iterB`
and `_iterBFound`. -/
structure LegacyJoinState where
  iterA : Nat
  iterB : Nat
  iterBFound : Nat
deriving DecidableEq

/-- Legacy `findNext` (lines 31-45): while `_iterA != _endA`, binary-search
`B` from `_iterB`; on a key-equivalent match record it in `_iterBFound`,
advance `_iterB` past it and stop; otherwise advance `_iterA` and reset
`_iterB` to `_beginB` (= 0). -/
def legacyFindNextAux {α β κ : Type _} (A : List α) (B : List β)
    (selA : α → κ) (selB : β → κ) (lt : κ → κ → Bool) :
    Nat → Nat → Nat → Nat → LegacyJoinState
  | 0, iA, iB, iBF => ⟨iA, iB, iBF⟩
  | fuel + 1, iA, iB, iBF =>
    if h : iA < A.length then
      let toFind := selA (A.get ⟨iA, h⟩)
      let iBGoal := lowerBoundFrom selB lt B iB toFind
      if hB : iBGoal < B.length then
        if !(lt toFind (selB (B.get ⟨iBGoal, hB⟩))) then ⟨iA, iBGoal + 1, iBGoal⟩
        else legacyFindNextAux A B selA selB lt fuel (iA + 1) 0 iBF
      else legacyFindNextAux A B selA selB lt fuel (iA + 1) 0 iBF
    else ⟨iA, iB, iBF⟩

/-- Legacy `findNext` on a state. -/
def legacyFindNext {α β κ : Type _} (A : List α) (B : List β) (selA : α → κ)
    (selB : β → κ) (lt : κ → κ → Bool) (st : LegacyJoinState) : LegacyJoinState :=
  legacyFindNextAux A B selA selB lt (A.length - st.iterA) st.iterA st.iterB st.iterBFound

/-- Legacy constructor (lines 54-69): `_iterBFound` starts at `_iterB`
(both are B's begin, or B's end when B is empty — the same index 0 here);
the same early return guards empty `A` or `B`, else `findNext` runs. -/
def legacyInit {α β κ : Type _} (A : List α) (B : List β) (selA : α → κ)
    (selB : β → κ) (lt : κ → κ → Bool) : LegacyJoinState :=
  if A.length = 0 ∨ B.length = 0 then ⟨0, 0, 0⟩
  else legacyFindNext A B selA selB lt ⟨0, 0, 0⟩

/-- Legacy `operator++` (lines 81-84): `findNext()` directly (the previous
`findNext` already advanced `_iterB` past the match). -/
def legacyIncrement {α β κ : Type _} (A : List α) (B : List β) (selA : α → κ)
    (selB : β → κ) (lt : κ → κ → Bool) (st : LegacyJoinState) : LegacyJoinState :=
  legacyFindNext A B selA selB lt st

/-- Legacy `operator*` (lines 73-75): `_resultSelector(*_iterA, *_iterBFound)`. -/
def legacyDeref {α β γ : Type _} (A : List α) (B : List β)
    (res : α → β → γ) (st : LegacyJoinState) : Option γ :=
  match A.get? st.iterA, B.get? st.iterBFound with
  | some a, some b => some (res a b)
  | _, _ => none

/-- Legacy `operator==` (lines 92-94): compares `_iterA` only. -/
def legacyEq (a b : LegacyJoinState) : Bool := a.iterA == b.iterA

/-- The legacy state after `k` increments of the begin cursor. -/
def legacyRun {α β κ : Type _} (A : List α) (B : List β) (selA : α → κ)
    (selB : β → κ) (lt : κ → κ → Bool) (k : Nat) : LegacyJoinState :=
  (legacyIncrement A B selA selB lt)^[k] (legacyInit A B selA selB lt)

/-- Simulation relation between a newer-generation state and a legacy state:
the A positions agree, and at active (dereferenceable) positions the newer
`_iterB` is the legacy `_iterBFound` while the legacy `_iterB` already sits one
past it (except in the degenerate empty-B construction state). -/
def JoinSim {α β : Type _} (A : List α) (B : List β)
    (n : JoinState) (l : LegacyJoinState) : Prop :=
  n.iterA = l.iterA ∧
  (n.iterA < A.length → n.iterB = l.iterBFound ∧ (l.iterB = n.iterB + 1 ∨ B = []))

/-! ## ExceptIterator (src/include/Lz/detail/ExceptIterator.hpp)

Only the comparison operators matter for the claims; the state is the
`_iterator` position and the `_end` position. -/

/-- Comparison-relevant state of `ExceptIterator`: `_iterator` and `_end`. -/
structure ExceptIt where
  iter : Nat
  endPos : Nat
deriving DecidableEq

/-- `operator!=` (lines 85-87): `_iterator != other._end`. -/
def exceptNe (a b : ExceptIt) : Bool := a.iter != b.endPos

/-- `operator==` (lines 89-91): `!(*this != other)`. -/
def exceptEq (a b : ExceptIt) : Bool := !(exceptNe a b)

/-! ## Concrete instance used by the claim about the sample join traversal -/

/-- The sample A sequence `[1, 2, 2, 3]`. -/
def sampleA : List Nat := [1, 2, 2, 3]

/-- The sample B sequence, sorted ascending by its first component. -/
def sampleB : List (Nat × String) := [(1, "x"), (2, "y"), (2, "z"), (4, "w")]

/-- Boolean `<` on `Nat` keys. -/
def natLt (a b : Nat) : Bool := a < b

/-- The sample result-combiner, producing `(a, b)` pairs (the A element with
B's payload). -/
def sampleRes (a : Nat) (b : Nat × String) : Nat × String := (a, b.2)

/-- The sample traversal's `k`-th state. -/
def sampleRun (k : Nat) : JoinState := joinRun sampleA sampleB id Prod.fst natLt k

/-! ## Helper lemmas about the cartesian-product odometer -/

theorem mixed_radix_step_lt {c s v P : Nat} (h : c + 1 = s)
    (hlt : c + s * v + 1 < s * P) : v + 1 < P := by
  have e : s * (v + 1) = s * v + s := by ring
  have h2 : s * (v + 1) < s * P := by omega
  exact Nat.lt_of_mul_lt_mul_left h2

theorem mixed_radix_top_eq {c s v P : Nat} (hc : c < s) (hvP : v + 1 ≤ P)
    (htop : c + s * v + 1 = s * P) : c + 1 = s ∧ v + 1 = P := by
  have hs : s * (v + 1) ≤ s * P := Nat.mul_le_mul_left s hvP
  have e : s * (v + 1) = s * v + s := by ring
  have hc1 : c + 1 = s := by omega
  have e2 : s * (v + 1) = s * P := by omega
  exact ⟨hc1, Nat.eq_of_mul_eq_mul_left (by omega) e2⟩

theorem mixed_radix_val_eq {c s v : Nat} (h : c + 1 = s) :
    0 + s * (v + 1) = c + s * v + 1 := by
  have e : s * (v + 1) = s * v + s := by ring
  omega

theorem mixed_radix_le {c s v P : Nat} (hc : c < s) (hvP : v + 1 ≤ P) :
    c + s * v + 1 ≤ s * P := by
  have hs : s * (v + 1) ≤ s * P := Nat.mul_le_mul_left s hvP
  have e : s * (v + 1) = s * v + s := by ring
  omega

theorem valRev_cons (c s : Nat) (rest : CPState) :
    valRev ((c, s) :: rest) = c + s * valRev rest := rfl

theorem valN_cons (c s : Nat) (rest : CPState) :
    valN ((c, s) :: rest) = c * prodPairs rest + valN rest := rfl

theorem prodPairs_nil : prodPairs [] = 1 := rfl

theorem prodPairs_cons (c s : Nat) (rest : CPState) :
    prodPairs ((c, s) :: rest) = s * prodPairs rest := by
  simp [prodPairs]

theorem nextRev_singleton (c s : Nat) : nextRev [(c, s)] = [(c + 1, s)] := by
  simp only [nextRev]
  split <;> rfl

theorem nextRev_cons_wrap {c s : Nat} (q : Nat × Nat) (r : CPState) (h : c + 1 = s) :
    nextRev ((c, s) :: q :: r) = (0, s) :: nextRev (q :: r) := by
  conv_lhs => simp only [nextRev]
  rw [if_pos h]
  conv_rhs => simp only [nextRev]

theorem nextRev_cons_nowrap {c s : Nat} (rest : CPState) (h : c + 1 ≠ s) :
    nextRev ((c, s) :: rest) = (c + 1, s) :: rest := by
  conv_lhs => simp only [nextRev]
  rw [if_neg h]

theorem nextRev_map_snd (l : CPState) : (nextRev l).map Prod.snd = l.map Prod.snd := by
  induction l with
  | nil => rfl
  | cons p rest ih =>
    obtain ⟨c, s⟩ := p
    by_cases h : c + 1 = s
    · cases rest with
      | nil =>
        rw [nextRev_singleton]
        rfl
      | cons q r =>
        rw [nextRev_cons_wrap q r h, List.map_cons, List.map_cons, ih]
    · rw [nextRev_cons_nowrap rest h]
      rfl

theorem validSt_reverse {l : CPState} : ValidSt l.reverse ↔ ValidSt l := by
  unfold ValidSt
  constructor <;> exact fun h p hp => h p (by simpa [List.mem_reverse] using hp)

theorem prodPairs_reverse (l : CPState) : prodPairs l.reverse = prodPairs l := by
  unfold prodPairs
  rw [List.map_reverse, List.prod_reverse]

theorem valRev_lt_prod {l : CPState} (h : ValidSt l) : valRev l + 1 ≤ prodPairs l := by
  induction l with
  | nil => simp [valRev, prodPairs]
  | cons p rest ih =>
    obtain ⟨c, s⟩ := p
    have hc : c < s := h (c, s) (List.mem_cons_self _ _)
    have hr : ValidSt rest := fun q hq => h q (List.mem_cons_of_mem _ hq)
    rw [valRev_cons, prodPairs_cons]
    exact mixed_radix_le hc (ih hr)

theorem valRev_append_single (m : CPState) (c s : Nat) :
    valRev (m ++ [(c, s)]) = valRev m + prodPairs m * c := by
  induction m with
  | nil => simp [valRev, prodPairs]
  | cons p rest ih =>
    obtain ⟨cq, sq⟩ := p
    rw [List.cons_append, valRev_cons, valRev_cons, prodPairs_cons, ih]
    ring

theorem valN_eq_valRev_reverse (l : CPState) : valN l = valRev l.reverse := by
  induction l with
  | nil => rfl
  | cons p rest ih =>
    obtain ⟨c, s⟩ := p
    rw [valN_cons, List.reverse_cons, valRev_append_single, ← ih, prodPairs_reverse]
    ring

theorem nextRev_step {l : CPState} (hv : ValidSt l) (hlt : valRev l + 1 < prodPairs l) :
    ValidSt (nextRev l) ∧ valRev (nextRev l) = valRev l + 1 := by
  induction l with
  | nil => simp [valRev, prodPairs] at hlt
  | cons p rest ih =>
    obtain ⟨c, s⟩ := p
    have hc : c < s := hv (c, s) (List.mem_cons_self _ _)
    have hrv : ValidSt rest := fun q hq => hv q (List.mem_cons_of_mem _ hq)
    rw [valRev_cons, prodPairs_cons] at hlt
    by_cases h : c + 1 = s
    · cases rest with
      | nil =>
        exfalso
        rw [valRev, prodPairs_nil, Nat.mul_one] at hlt
        omega
      | cons q r =>
        have hsub : valRev (q :: r) + 1 < prodPairs (q :: r) := mixed_radix_step_lt h hlt
        obtain ⟨ih1, ih2⟩ := ih hrv hsub
        constructor
        · rw [nextRev_cons_wrap q r h]
          intro x hx
          rcases List.mem_cons.mp hx with rfl | hx
          · show 0 < s
            omega
          · exact ih1 x hx
        · rw [nextRev_cons_wrap q r h, valRev_cons, ih2, valRev_cons]
          exact mixed_radix_val_eq h
    · constructor
      · rw [nextRev_cons_nowrap rest h]
        intro x hx
        rcases List.mem_cons.mp hx with rfl | hx
        · show c + 1 < s
          omega
        · exact hv x (List.mem_cons_of_mem _ hx)
      · rw [nextRev_cons_nowrap rest h, valRev_cons, valRev_cons]
        omega

theorem nextRev_top {l : CPState} (hv : ValidSt l) (htop : valRev l + 1 = prodPairs l) :
    ∀ c s, l.getLast? = some (c, s) → (nextRev l).getLast? = some (s, s) := by
  induction l with
  | nil => intro c s h; simp at h
  | cons p rest ih =>
    obtain ⟨c0, s0⟩ := p
    intro c s hlast
    have hc : c0 < s0 := hv (c0, s0) (List.mem_cons_self _ _)
    have hrv : ValidSt rest := fun q hq => hv q (List.mem_cons_of_mem _ hq)
    rw [valRev_cons, prodPairs_cons] at htop
    cases rest with
    | nil =>
      simp only [List.getLast?_singleton, Option.some_inj] at hlast
      obtain ⟨rfl, rfl⟩ : c0 = c ∧ s0 = s :=
        ⟨congrArg Prod.fst hlast, congrArg Prod.snd hlast⟩
      have h1 : c0 + 1 = s0 := by
        rw [valRev, prodPairs_nil, Nat.mul_one] at htop
        omega
      rw [nextRev_singleton, h1]
      rfl
    | cons q r =>
      have hvr := valRev_lt_prod hrv
      obtain ⟨hc1, hP⟩ := mixed_radix_top_eq hc hvr htop
      have hlast2 : (q :: r).getLast? = some (c, s) := by
        rw [← List.getLast?_cons_cons]
        exact hlast
      have hres := ih hrv hP c s hlast2
      have hne : nextRev (q :: r) ≠ [] := by
        intro hnil
        have hsnd := nextRev_map_snd (q :: r)
        rw [hnil] at hsnd
        simp at hsnd
      rw [nextRev_cons_wrap q r hc1]
      cases hnx : nextRev (q :: r) with
      | nil => exact absurd hnx hne
      | cons y ys =>
        rw [List.getLast?_cons_cons]
        rw [hnx] at hres
        exact hres

theorem checkEnd_of_valid {st : CPState} (hv : ValidSt st) : checkEnd st = st := by
  cases st with
  | nil => rfl
  | cons p rest =>
    obtain ⟨c, s⟩ := p
    have hc : c < s := hv (c, s) (List.mem_cons_self _ _)
    simp [checkEnd, Nat.ne_of_lt hc]

theorem valRev_zeros (l : List Nat) : valRev (l.map fun s => (0, s)) = 0 := by
  induction l with
  | nil => rfl
  | cons s rest ih => simp [valRev_cons, ih]

theorem sizesOf_cpNext (st : CPState) : sizesOf (cpNext st) = sizesOf st := by
  unfold sizesOf cpNext
  rw [List.map_reverse, nextRev_map_snd, List.map_reverse, List.reverse_reverse]

theorem sizesOf_checkEnd_of_head {c s : Nat} {t : CPState} (h : c = s) :
    checkEnd ((c, s) :: t) = (sizesOf ((c, s) :: t)).map (fun z => (z, z)) := by
  subst h
  simp [checkEnd, sizesOf, List.map_map, Function.comp]

theorem cpBegin_valid {sizes : List Nat} (hpos : ∀ s ∈ sizes, 0 < s) :
    ValidSt (cpBegin sizes) := by
  intro p hp
  unfold cpBegin at hp
  obtain ⟨z, hz, rfl⟩ := List.mem_map.mp hp
  exact hpos z hz

theorem sizesOf_cpBegin (sizes : List Nat) : sizesOf (cpBegin sizes) = sizes := by
  unfold sizesOf cpBegin
  rw [List.map_map]
  simp

theorem valN_cpBegin (sizes : List Nat) : valN (cpBegin sizes) = 0 := by
  rw [valN_eq_valRev_reverse]
  unfold cpBegin
  rw [← List.map_reverse, valRev_zeros]

theorem prodPairs_eq_prod_sizesOf (st : CPState) : prodPairs st = (sizesOf st).prod := rfl

/-- One valid, non-final increment advances the mixed-radix value by one. -/
theorem cpIncrement_spec {st : CPState} (hv : ValidSt st)
    (hlt : valN st + 1 < (sizesOf st).prod) :
    ValidSt (cpIncrement st) ∧ sizesOf (cpIncrement st) = sizesOf st ∧
      valN (cpIncrement st) = valN st + 1 := by
  have hvrev : ValidSt st.reverse := validSt_reverse.mpr hv
  have hlt2 : valRev st.reverse + 1 < prodPairs st.reverse := by
    rw [← valN_eq_valRev_reverse, prodPairs_reverse, prodPairs_eq_prod_sizesOf]
    exact hlt
  obtain ⟨hstep1, hstep2⟩ := nextRev_step hvrev hlt2
  have hvnext : ValidSt (cpNext st) := by
    unfold cpNext
    exact validSt_reverse.mp (by rwa [List.reverse_reverse])
  have hval : valN (cpNext st) = valN st + 1 := by
    rw [valN_eq_valRev_reverse (cpNext st)]
    unfold cpNext
    rw [List.reverse_reverse, hstep2, ← valN_eq_valRev_reverse]
  have hcheck : cpIncrement st = cpNext st := checkEnd_of_valid hvnext
  refine ⟨?_, ?_, ?_⟩
  · rw [cpIncrement] at *
    rw [hcheck]
    exact hvnext
  · rw [cpIncrement] at *
    rw [hcheck, sizesOf_cpNext]
  · rw [cpIncrement] at *
    rw [hcheck, hval]

theorem cpRun_succ (sizes : List Nat) (k : Nat) :
    cpRun sizes (k + 1) = cpIncrement (cpRun sizes k) := by
  unfold cpRun
  rw [Function.iterate_succ_apply']

/-- Along the first `∏ sizes` positions, the traversal stays valid and its
mixed-radix value counts the steps. -/
theorem cpRun_spec (sizes : List Nat) (hpos : ∀ s ∈ sizes, 0 < s) :
    ∀ k, k < sizes.prod →
      ValidSt (cpRun sizes k) ∧ sizesOf (cpRun sizes k) = sizes ∧
        valN (cpRun sizes k) = k := by
  intro k
  induction k with
  | zero =>
    intro _
    exact ⟨cpBegin_valid hpos, sizesOf_cpBegin sizes, valN_cpBegin sizes⟩
  | succ k ih =>
    intro hk1
    obtain ⟨hv, hsz, hval⟩ := ih (Nat.lt_of_succ_lt hk1)
    have hlt : valN (cpRun sizes k) + 1 < (sizesOf (cpRun sizes k)).prod := by
      rw [hval, hsz]
      exact hk1
    obtain ⟨h1, h2, h3⟩ := cpIncrement_spec hv hlt
    rw [cpRun_succ]
    exact ⟨h1, by rw [h2, hsz], by rw [h3, hval]⟩

/-- Incrementing a valid state of top value lands exactly on the all-end
state. -/
theorem cpIncrement_top {st : CPState} {sizes : List Nat} (hv : ValidSt st)
    (hsz : sizesOf st = sizes) (hne : st ≠ [])
    (htop : valN st + 1 = sizes.prod) :
    cpIncrement st = cpEnd sizes := by
  obtain ⟨⟨c0, s0⟩, t, rfl⟩ : ∃ p t, st = p :: t := by
    cases st with
    | nil => exact absurd rfl hne
    | cons p t => exact ⟨p, t, rfl⟩
  have htop2 : valRev ((c0, s0) :: t).reverse + 1 = prodPairs ((c0, s0) :: t).reverse := by
    rw [← valN_eq_valRev_reverse, prodPairs_reverse, prodPairs_eq_prod_sizesOf, hsz]
    exact htop
  have hvrev : ValidSt ((c0, s0) :: t).reverse := validSt_reverse.mpr hv
  have hlastrev : ((c0, s0) :: t).reverse.getLast? = some (c0, s0) := by
    rw [List.getLast?_reverse]
    rfl
  have hlast := nextRev_top hvrev htop2 c0 s0 hlastrev
  have hhead : (cpNext ((c0, s0) :: t)).head? = some (s0, s0) := by
    unfold cpNext
    rw [List.head?_reverse]
    exact hlast
  have hsznext : sizesOf (cpNext ((c0, s0) :: t)) = sizes := by
    rw [sizesOf_cpNext, hsz]
  cases hnx : cpNext ((c0, s0) :: t) with
  | nil =>
    rw [hnx] at hhead
    simp at hhead
  | cons y ys =>
    rw [hnx] at hhead
    simp only [List.head?_cons, Option.some_inj] at hhead
    obtain ⟨y1, y2⟩ := y
    obtain ⟨rfl, rfl⟩ : y1 = s0 ∧ y2 = s0 :=
      ⟨congrArg Prod.fst hhead, congrArg Prod.snd hhead⟩
    rw [cpIncrement, hnx, sizesOf_checkEnd_of_head rfl]
    rw [hnx] at hsznext
    rw [hsznext]
    rfl

/-- After exactly `∏ sizes` increments the cursor state is the all-end
state. -/
theorem cpRun_prod (sizes : List Nat) (hpos : ∀ s ∈ sizes, 0 < s)
    (hne : sizes ≠ []) : cpRun sizes sizes.prod = cpEnd sizes := by
  have hprod : 0 < sizes.prod := List.prod_pos hpos
  obtain ⟨hv, hsz, hval⟩ := cpRun_spec sizes hpos (sizes.prod - 1) (by omega)
  have hstne : cpRun sizes (sizes.prod - 1) ≠ [] := by
    intro hnil
    rw [hnil] at hsz
    exact hne hsz.symm
  have hstep := cpRun_succ sizes (sizes.prod - 1)
  have hc : sizes.prod - 1 + 1 = sizes.prod := by omega
  rw [hc] at hstep
  rw [hstep]
  exact cpIncrement_top hv hsz hstne (by omega)

/-! ## Rank/unrank lemmas -/

theorem unrank_length (sizes : List Nat) (k : Nat) :
    (unrank sizes k).length = sizes.length := by
  induction sizes generalizing k with
  | nil => rfl
  | cons z ss ih => simp [unrank, ih]

theorem sizesOf_unrank_zip (sizes : List Nat) (k : Nat) :
    sizesOf ((unrank sizes k).zip sizes) = sizes := by
  unfold sizesOf
  exact List.map_snd_zip _ _ (le_of_eq (unrank_length sizes k).symm)

theorem unrank_zip_valid (sizes : List Nat) (k : Nat) (hk : k < sizes.prod) :
    ValidSt ((unrank sizes k).zip sizes) := by
  induction sizes generalizing k with
  | nil => intro p hp; simp [unrank] at hp
  | cons z ss ih =>
    rw [List.prod_cons] at hk
    have hP : 0 < ss.prod := by
      rcases Nat.eq_zero_or_pos ss.prod with h0 | h
      · rw [h0, Nat.mul_zero] at hk; omega
      · exact h
    intro p hp
    rw [unrank, List.zip_cons_cons] at hp
    rcases List.mem_cons.mp hp with rfl | hp
    · exact (Nat.div_lt_iff_lt_mul hP).mpr hk
    · exact ih (k % ss.prod) (Nat.mod_lt k hP) p hp

theorem valN_unrank_zip (sizes : List Nat) (k : Nat) (hk : k < sizes.prod) :
    valN ((unrank sizes k).zip sizes) = k := by
  induction sizes generalizing k with
  | nil =>
    rw [List.prod_nil] at hk
    interval_cases k
    rfl
  | cons z ss ih =>
    rw [List.prod_cons] at hk
    have hP : 0 < ss.prod := by
      rcases Nat.eq_zero_or_pos ss.prod with h0 | h
      · rw [h0, Nat.mul_zero] at hk; omega
      · exact h
    rw [unrank, List.zip_cons_cons, valN_cons, prodPairs_eq_prod_sizesOf,
      sizesOf_unrank_zip, ih (k % ss.prod) (Nat.mod_lt k hP)]
    rw [Nat.mul_comm]
    exact Nat.div_add_mod k ss.prod

theorem valN_lt_prodPairs {l : CPState} (hv : ValidSt l) : valN l + 1 ≤ prodPairs l := by
  rw [valN_eq_valRev_reverse, ← prodPairs_reverse]
  exact valRev_lt_prod (validSt_reverse.mpr hv)

theorem digit_unique {P c1 v1 c2 v2 : Nat} (h1 : v1 < P) (h2 : v2 < P)
    (he : c1 * P + v1 = c2 * P + v2) : c1 = c2 ∧ v1 = v2 := by
  have hcc : c1 = c2 := by
    rcases Nat.lt_trichotomy c1 c2 with h | h | h
    · exfalso
      have hmul : (c1 + 1) * P ≤ c2 * P := Nat.mul_le_mul_right P (by omega)
      rw [Nat.add_mul, Nat.one_mul] at hmul
      omega
    · exact h
    · exfalso
      have hmul : (c2 + 1) * P ≤ c1 * P := Nat.mul_le_mul_right P (by omega)
      rw [Nat.add_mul, Nat.one_mul] at hmul
      omega
  subst hcc
  omega

/-- A valid state is determined by its sizes and its mixed-radix value. -/
theorem valN_inj {l1 l2 : CPState} (h1 : ValidSt l1) (h2 : ValidSt l2)
    (hsz : sizesOf l1 = sizesOf l2) (hval : valN l1 = valN l2) : l1 = l2 := by
  induction l1 generalizing l2 with
  | nil =>
    cases l2 with
    | nil => rfl
    | cons q r2 => simp [sizesOf] at hsz
  | cons p r ih =>
    cases l2 with
    | nil => simp [sizesOf] at hsz
    | cons q r2 =>
      obtain ⟨c1, s1⟩ := p
      obtain ⟨c2, s2⟩ := q
      have hs12 : s1 = s2 ∧ sizesOf r = sizesOf r2 := by
        unfold sizesOf at hsz
        rw [List.map_cons, List.map_cons] at hsz
        exact ⟨List.head_eq_of_cons_eq hsz, List.tail_eq_of_cons_eq hsz⟩
      obtain ⟨rfl, hsz2⟩ := hs12
      have hvr : ValidSt r := fun x hx => h1 x (List.mem_cons_of_mem _ hx)
      have hvr2 : ValidSt r2 := fun x hx => h2 x (List.mem_cons_of_mem _ hx)
      have hPeq : prodPairs r = prodPairs r2 := by
        rw [prodPairs_eq_prod_sizesOf, prodPairs_eq_prod_sizesOf, hsz2]
      rw [valN_cons, valN_cons, hPeq] at hval
      have hb1 : valN r < prodPairs r2 := by
        rw [← hPeq]
        exact valN_lt_prodPairs hvr
      have hb2 : valN r2 < prodPairs r2 := valN_lt_prodPairs hvr2
      obtain ⟨rfl, hveq⟩ := digit_unique hb1 hb2 hval
      rw [ih hvr hvr2 hsz2 hveq]

/-! ## The lexicographic enumeration -/

theorem range_mul_unrank (P : Nat) (g : Nat → List Nat) :
    ∀ z : Nat, (List.range (z * P)).map (fun k => k / P :: g (k % P)) =
      (List.range z).flatMap (fun c => (List.range P).map (fun j => c :: g j)) := by
  intro z
  induction z with
  | zero => simp
  | succ n ih =>
    rw [Nat.succ_mul, List.range_add, List.map_append, ih, List.range_succ,
      List.flatMap_append]
    congr 1
    rw [List.map_map]
    have hsing : List.flatMap [n] (fun c => (List.range P).map (fun j => c :: g j)) =
        (List.range P).map (fun j => n :: g j) := by
      simp
    rw [hsing]
    apply List.map_congr_left
    intro j hj
    have hjP : j < P := List.mem_range.mp hj
    have hP : 0 < P := by omega
    simp only [Function.comp_apply]
    have hdiv : (n * P + j) / P = n := by
      rw [Nat.add_comm (n * P) j, Nat.mul_comm n P, Nat.add_mul_div_left j n hP,
        Nat.div_eq_of_lt hjP, Nat.zero_add]
    have hmod : (n * P + j) % P = j := by
      rw [Nat.add_comm (n * P) j, Nat.mul_comm n P, Nat.add_mul_mod_self_left,
        Nat.mod_eq_of_lt hjP]
    rw [hdiv, hmod]

theorem allTuples_eq_map_unrank (sizes : List Nat) :
    allTuples sizes = (List.range sizes.prod).map (unrank sizes) := by
  induction sizes with
  | nil => rfl
  | cons z ss ih =>
    have hmap : (List.range (z * ss.prod)).map (unrank (z :: ss)) =
        (List.range (z * ss.prod)).map (fun k => k / ss.prod :: unrank ss (k % ss.prod)) := by
      apply List.map_congr_left
      intro k _
      rfl
    rw [List.prod_cons, hmap, range_mul_unrank ss.prod (unrank ss) z]
    rw [allTuples, ih]
    congr 1
    funext c
    rw [List.map_map]
    rfl

theorem allTuples_length (sizes : List Nat) :
    (allTuples sizes).length = sizes.prod := by
  rw [allTuples_eq_map_unrank, List.length_map, List.length_range]

theorem allTuples_nodup (sizes : List Nat) : (allTuples sizes).Nodup := by
  rw [allTuples_eq_map_unrank]
  refine List.Nodup.map_on ?_ (List.nodup_range _)
  intro k1 h1 k2 h2 he
  have e1 := valN_unrank_zip sizes k1 (List.mem_range.mp h1)
  have e2 := valN_unrank_zip sizes k2 (List.mem_range.mp h2)
  rw [← e1, ← e2, he]

theorem allTuples_pairwise_lex (sizes : List Nat) :
    (allTuples sizes).Pairwise (List.Lex (· < ·)) := by
  induction sizes with
  | nil => simp [allTuples]
  | cons z ss ih =>
    rw [allTuples, List.pairwise_flatMap]
    constructor
    · intro c _
      exact List.Pairwise.map _ (fun a b h => List.Lex.cons h) ih
    · refine List.Pairwise.imp ?_ (List.pairwise_lt_range z)
      intro c1 c2 hlt x hx y hy
      obtain ⟨t1, _, rfl⟩ := List.mem_map.mp hx
      obtain ⟨t2, _, rfl⟩ := List.mem_map.mp hy
      exact List.Lex.rel hlt

theorem map_fst_cpEnd (sizes : List Nat) : (cpEnd sizes).map Prod.fst = sizes := by
  induction sizes with
  | nil => rfl
  | cons z ss ih =>
    unfold cpEnd at *
    rw [List.map_cons, List.map_cons, ih]

/-- The tuple visited at step `k < ∏ sizes` is exactly `unrank sizes k`. -/
theorem cpRun_map_fst (sizes : List Nat) (hpos : ∀ s ∈ sizes, 0 < s)
    (k : Nat) (hk : k < sizes.prod) :
    (cpRun sizes k).map Prod.fst = unrank sizes k := by
  obtain ⟨hv, hsz, hval⟩ := cpRun_spec sizes hpos k hk
  have hz := valN_inj hv (unrank_zip_valid sizes k hk)
    (by rw [hsz, sizesOf_unrank_zip]) (by rw [hval, valN_unrank_zip sizes k hk])
  rw [hz, List.map_fst_zip _ _ (le_of_eq (unrank_length sizes k))]

/-! ## Claim theorems: cartesian product traversal -/

/-- C2: for every N ≥ 2 sequences with all sizes nonzero, repeatedly
incrementing the begin cursor visits exactly `∏ sᵢ` tuples — the full
lexicographic enumeration with dimension N-1 varying fastest — pairwise
distinct and strictly lexicographically increasing; every one of those
positions differs from the end cursor and the very next increment makes the
cursor compare equal to the end cursor. -/
theorem claim_C2_cartesian_traversal (sizes : List Nat) (hlen : 2 ≤ sizes.length)
    (hpos : ∀ s ∈ sizes, 0 < s) :
    cpTraverse sizes = allTuples sizes ∧
    (cpTraverse sizes).length = sizes.prod ∧
    (cpTraverse sizes).Nodup ∧
    (cpTraverse sizes).Pairwise (List.Lex (· < ·)) ∧
    (∀ k, k < sizes.prod → cpEq (cpRun sizes k) (cpEnd sizes) = false) ∧
    cpEq (cpRun sizes sizes.prod) (cpEnd sizes) = true := by
  have hne : sizes ≠ [] := by
    intro h
    rw [h] at hlen
    simp at hlen
  have htrav : cpTraverse sizes = allTuples sizes := by
    rw [allTuples_eq_map_unrank]
    unfold cpTraverse
    apply List.map_congr_left
    intro k hk
    exact cpRun_map_fst sizes hpos k (List.mem_range.mp hk)
  refine ⟨htrav, ?_, ?_, ?_, ?_, ?_⟩
  · rw [htrav, allTuples_length]
  · rw [htrav]
    exact allTuples_nodup sizes
  · rw [htrav]
    exact allTuples_pairwise_lex sizes
  · intro k hk
    unfold cpEq
    rw [cpRun_map_fst sizes hpos k hk, map_fst_cpEnd, beq_eq_false_iff_ne]
    intro heq
    obtain ⟨z, ss, rfl⟩ : ∃ z ss, sizes = z :: ss := by
      cases sizes with
      | nil => exact absurd rfl hne
      | cons z ss => exact ⟨z, ss, rfl⟩
    have hvalid := unrank_zip_valid (z :: ss) k hk
    have hmem : (k / ss.prod, z) ∈ (unrank (z :: ss) k).zip (z :: ss) := by
      rw [unrank, List.zip_cons_cons]
      exact List.mem_cons_self _ _
    have hdig : k / ss.prod < z := hvalid _ hmem
    rw [unrank] at heq
    have hhd : k / ss.prod = z := List.head_eq_of_cons_eq heq
    omega
  · rw [cpRun_prod sizes hpos hne]
    unfold cpEq
    exact beq_self_eq_true _

/-- Witness for C2 at sizes `[2, 3]`. -/
theorem claim_C2_witness :
    (2 ≤ ([2, 3] : List Nat).length ∧ (∀ s ∈ ([2, 3] : List Nat), 0 < s)) ∧
    (cpTraverse [2, 3] = allTuples [2, 3] ∧
     (cpTraverse [2, 3]).length = ([2, 3] : List Nat).prod ∧
     (cpTraverse [2, 3]).Nodup ∧
     (cpTraverse [2, 3]).Pairwise (List.Lex (· < ·)) ∧
     (∀ k, k < ([2, 3] : List Nat).prod →
        cpEq (cpRun [2, 3] k) (cpEnd [2, 3]) = false) ∧
     cpEq (cpRun [2, 3] ([2, 3] : List Nat).prod) (cpEnd [2, 3]) = true) :=
  ⟨⟨by decide, by decide⟩, claim_C2_cartesian_traversal [2, 3] (by decide) (by decide)⟩

/-! ## Lemmas about `plusIs` (signed jumps) and `difference` -/

theorem tdiv_coe (m n : Nat) : (m : Int).tdiv (n : Int) = ((m / n : Nat) : Int) := rfl

theorem tmod_coe (m n : Nat) : (m : Int).tmod (n : Int) = ((m % n : Nat) : Int) := rfl

theorem plusRev_singleton_nat (s k : Nat) :
    plusRev [(0, s)] (k : Int) = [(k, s)] := by
  simp [plusRev]

theorem plusRev_cons_nat (s s2 : Nat) (r2 : CPState) (k : Nat) :
    plusRev ((0, s) :: (0, s2) :: r2) (k : Int) =
      ((k % s), s) :: plusRev ((0, s2) :: r2) ((k / s : Nat) : Int) := by
  have hk0 : ¬((k : Int) < 0) := Int.not_lt.mpr (Int.ofNat_nonneg k)
  simp only [plusRev]
  rw [if_neg (fun h => hk0 h.1), if_neg hk0]
  have hsub : (s : Int) - ((0 : Nat) : Int) = (s : Int) := by simp
  rw [hsub, tmod_coe, tdiv_coe]
  simp
  omega

/-- Jumping by a natural offset `k` from an all-zero (begin) reversed state
produces the little-endian digits of `k`: the sizes are preserved, the
mixed-radix value of the landing state is exactly `k`, and the state is valid
whenever `k` is strictly below the capacity. -/
theorem plusRev_zeros (l : List Nat) :
    ∀ k : Nat, l ≠ [] →
      (plusRev (l.map fun s => (0, s)) (k : Int)).map Prod.snd = l ∧
      valRev (plusRev (l.map fun s => (0, s)) (k : Int)) = k ∧
      (k < l.prod → ValidSt (plusRev (l.map fun s => (0, s)) (k : Int))) := by
  induction l with
  | nil => intro k h; exact absurd rfl h
  | cons s rest ih =>
    intro k _
    cases rest with
    | nil =>
      rw [List.map_cons, List.map_nil, plusRev_singleton_nat]
      refine ⟨rfl, ?_, ?_⟩
      · rw [valRev_cons]
        simp [valRev]
      · intro hk p hp
        rcases List.mem_singleton.mp hp with rfl
        show k < s
        rw [List.prod_cons, List.prod_nil, Nat.mul_one] at hk
        exact hk
    | cons s2 r2 =>
      have hmf : ((0, s2) :: List.map (fun z => (0, z)) r2 : CPState) =
          List.map (fun z => (0, z)) (s2 :: r2) := (List.map_cons _ _ _).symm
      rw [List.map_cons, List.map_cons, plusRev_cons_nat, hmf]
      obtain ⟨ih1, ih2, ih3⟩ := ih (k / s) (by simp)
      refine ⟨?_, ?_, ?_⟩
      · rw [List.map_cons, ih1]
      · rw [valRev_cons, ih2]
        exact Nat.mod_add_div k s
      · intro hk p hp
        rw [List.prod_cons] at hk
        have hs : 0 < s := by
          rcases Nat.eq_zero_or_pos s with rfl | hs
          · rw [Nat.zero_mul] at hk
            omega
          · exact hs
        rcases List.mem_cons.mp hp with rfl | hp
        · show k % s < s
          exact Nat.mod_lt k hs
        · refine ih3 ?_ p hp
          rw [Nat.div_lt_iff_lt_mul hs, Nat.mul_comm]
          exact hk

/-- Jumping by exactly the capacity from an all-zero reversed state leaves
the slowest dimension (the last reversed entry) at its end. -/
theorem plusRev_zeros_prod (l : List Nat) :
    ∀ hpos : ∀ s ∈ l, 0 < s, l ≠ [] →
      (plusRev (l.map fun s => (0, s)) ((l.prod : Nat) : Int)).getLast? =
        l.getLast?.map (fun s => (s, s)) := by
  induction l with
  | nil => intro _ h; exact absurd rfl h
  | cons s rest ih =>
    intro hpos _
    cases rest with
    | nil =>
      rw [List.map_cons, List.map_nil, List.prod_cons, List.prod_nil, Nat.mul_one,
        plusRev_singleton_nat]
      rfl
    | cons s2 r2 =>
      have hs : 0 < s := hpos s (List.mem_cons_self _ _)
      have hposr : ∀ z ∈ s2 :: r2, 0 < z := fun z hz => hpos z (List.mem_cons_of_mem _ hz)
      have hmf : ((0, s2) :: List.map (fun z => (0, z)) r2 : CPState) =
          List.map (fun z => (0, z)) (s2 :: r2) := (List.map_cons _ _ _).symm
      rw [List.map_cons, List.map_cons, List.prod_cons, plusRev_cons_nat, hmf]
      have hmod : s * (s2 :: r2).prod % s = 0 := Nat.mul_mod_right s _
      have hdiv : s * (s2 :: r2).prod / s = (s2 :: r2).prod := Nat.mul_div_cancel_left _ hs
      rw [hmod, hdiv]
      have hres := ih hposr (by simp)
      have hne2 : plusRev ((s2 :: r2).map fun z => (0, z)) (((s2 :: r2).prod : Nat) : Int) ≠ [] := by
        intro hnil
        obtain ⟨h1, _, _⟩ := plusRev_zeros (s2 :: r2) ((s2 :: r2).prod) (by simp)
        rw [hnil] at h1
        simp at h1
      cases hnx : plusRev ((s2 :: r2).map fun z => (0, z)) (((s2 :: r2).prod : Nat) : Int) with
      | nil => exact absurd hnx hne2
      | cons y ys =>
        rw [hnx] at hres
        rw [List.getLast?_cons_cons, List.getLast?_cons_cons]
        exact hres

theorem reverse_cpBegin (sizes : List Nat) :
    (cpBegin sizes).reverse = sizes.reverse.map (fun s => (0, s)) := by
  unfold cpBegin
  exact (List.map_reverse _ _).symm

/-- Advancing the begin cursor by `k < ∏ sizes` lands on the `k`-th tuple. -/
theorem cpPlusIs_begin_lt (sizes : List Nat) (hpos : ∀ s ∈ sizes, 0 < s)
    (hne : sizes ≠ []) (k : Nat) (hk : k < sizes.prod) :
    (cpPlusIs (cpBegin sizes) (k : Int)).map Prod.fst = unrank sizes k := by
  have hrne : sizes.reverse ≠ [] := by
    intro h
    exact hne (by simpa using congrArg List.reverse h)
  obtain ⟨h1, h2, h3⟩ := plusRev_zeros sizes.reverse k hrne
  have hv : ValidSt (plusRev (sizes.reverse.map fun s => (0, s)) (k : Int)) := by
    refine h3 ?_
    rw [List.prod_reverse]
    exact hk
  have hst : cpPlusIs (cpBegin sizes) (k : Int) =
      (plusRev (sizes.reverse.map fun s => (0, s)) (k : Int)).reverse := by
    unfold cpPlusIs
    rw [reverse_cpBegin]
    exact checkEnd_of_valid (validSt_reverse.mpr hv)
  have hsz : sizesOf ((plusRev (sizes.reverse.map fun s => (0, s)) (k : Int)).reverse) = sizes := by
    unfold sizesOf
    rw [List.map_reverse, h1, List.reverse_reverse]
  have hval : valN ((plusRev (sizes.reverse.map fun s => (0, s)) (k : Int)).reverse) = k := by
    rw [valN_eq_valRev_reverse, List.reverse_reverse, h2]
  rw [hst]
  have hz := valN_inj (validSt_reverse.mpr hv) (unrank_zip_valid sizes k hk)
    (by rw [hsz, sizesOf_unrank_zip]) (by rw [hval, valN_unrank_zip sizes k hk])
  rw [hz, List.map_fst_zip _ _ (le_of_eq (unrank_length sizes k))]

/-- Advancing the begin cursor by exactly `∏ sizes` lands on the end
cursor. -/
theorem cpPlusIs_begin_prod (sizes : List Nat) (hpos : ∀ s ∈ sizes, 0 < s)
    (hne : sizes ≠ []) :
    cpPlusIs (cpBegin sizes) ((sizes.prod : Nat) : Int) = cpEnd sizes := by
  have hrne : sizes.reverse ≠ [] := by
    intro h
    exact hne (by simpa using congrArg List.reverse h)
  have hrpos : ∀ s ∈ sizes.reverse, 0 < s := fun z hz => hpos z (List.mem_reverse.mp hz)
  have hlastR := plusRev_zeros_prod sizes.reverse hrpos hrne
  obtain ⟨h1, _, _⟩ := plusRev_zeros sizes.reverse sizes.reverse.prod hrne
  rw [List.prod_reverse] at hlastR h1
  have hhead : ((plusRev (sizes.reverse.map fun s => (0, s)) ((sizes.prod : Nat) : Int)).reverse).head? =
      sizes.head?.map (fun s => (s, s)) := by
    rw [List.head?_reverse, hlastR, List.getLast?_reverse]
  obtain ⟨z, ss, rfl⟩ : ∃ z ss, sizes = z :: ss := by
    cases sizes with
    | nil => exact absurd rfl hne
    | cons z ss => exact ⟨z, ss, rfl⟩
  unfold cpPlusIs
  rw [reverse_cpBegin]
  cases hnx : (plusRev ((z :: ss).reverse.map fun s => (0, s)) (((z :: ss).prod : Nat) : Int)).reverse with
  | nil =>
    rw [hnx] at hhead
    simp at hhead
  | cons y ys =>
    rw [hnx] at hhead
    obtain ⟨y1, y2⟩ := y
    have hyz : (y1, y2) = (z, z) := by
      have hz : (z :: ss).head?.map (fun s => (s, s)) = some (z, z) := rfl
      rw [hz] at hhead
      exact Option.some_inj.mp hhead
    have hy1 : y1 = z := congrArg Prod.fst hyz
    have hy2 : y2 = z := congrArg Prod.snd hyz
    rw [sizesOf_checkEnd_of_head (hy1.trans hy2.symm)]
    have hszst : sizesOf ((y1, y2) :: ys) = z :: ss := by
      rw [← hnx]
      unfold sizesOf
      rw [List.map_reverse, h1, List.reverse_reverse]
    rw [hszst]
    rfl

theorem cpLast_valid {sizes : List Nat} (hpos : ∀ s ∈ sizes, 0 < s) :
    ValidSt (cpLast sizes) := by
  intro p hp
  unfold cpLast at hp
  obtain ⟨z, hz, rfl⟩ := List.mem_map.mp hp
  have := hpos z hz
  simp only []
  omega

theorem sizesOf_cpLast (sizes : List Nat) : sizesOf (cpLast sizes) = sizes := by
  induction sizes with
  | nil => rfl
  | cons z ss ih =>
    unfold sizesOf cpLast at *
    rw [List.map_cons, List.map_cons, ih]

theorem valRev_lasts (l : List Nat) (hpos : ∀ s ∈ l, 0 < s) :
    valRev (l.map fun s => (s - 1, s)) + 1 = l.prod := by
  induction l with
  | nil => rfl
  | cons z rest ih =>
    have hz : 0 < z := hpos z (List.mem_cons_self _ _)
    have ihr := ih (fun s hs => hpos s (List.mem_cons_of_mem _ hs))
    rw [List.map_cons, valRev_cons, List.prod_cons]
    have e : z * (valRev (rest.map fun s => (s - 1, s)) + 1) =
        z * valRev (rest.map fun s => (s - 1, s)) + z := by ring
    have e2 : z * (valRev (rest.map fun s => (s - 1, s)) + 1) = z * rest.prod := by
      rw [ihr]
    omega

theorem valN_cpLast (sizes : List Nat) (hpos : ∀ s ∈ sizes, 0 < s) :
    valN (cpLast sizes) + 1 = sizes.prod := by
  rw [valN_eq_valRev_reverse]
  unfold cpLast
  rw [← List.map_reverse]
  rw [valRev_lasts sizes.reverse (fun z hz => hpos z (List.mem_reverse.mp hz)),
    List.prod_reverse]

theorem sizesOf_cpEnd (sizes : List Nat) : sizesOf (cpEnd sizes) = sizes := by
  induction sizes with
  | nil => rfl
  | cons z ss ih =>
    unfold sizesOf cpEnd at *
    rw [List.map_cons, List.map_cons, ih]

theorem cpDifference_to_begin (st : CPState) (sizes : List Nat)
    (hsz : sizesOf st = sizes) :
    cpDifference st (cpBegin sizes) =
      ((st.map Prod.fst).map (fun c : Nat => (c : Int))).prod := by
  induction st generalizing sizes with
  | nil =>
    obtain rfl : sizes = [] := hsz.symm
    rfl
  | cons p r ih =>
    obtain ⟨c, z⟩ := p
    obtain rfl : sizes = z :: (sizesOf r) := by
      rw [← hsz]
      rfl
    have ihr := ih (sizesOf r) rfl
    unfold cpDifference distanceImpl cpBegin at ihr ⊢
    simp only [List.map_cons, List.zip_cons_cons, List.prod_cons]
    rw [ihr]
    have h0 : ((c : Int) - ((0 : Nat) : Int)) = (c : Int) := by simp
    rw [h0]

theorem cpDifference_end_begin (sizes : List Nat) :
    cpDifference (cpEnd sizes) (cpBegin sizes) = (sizes.prod : Int) := by
  rw [cpDifference_to_begin (cpEnd sizes) sizes (sizesOf_cpEnd sizes), map_fst_cpEnd]
  exact (Nat.cast_list_prod sizes).symm

theorem map_snd_diag (l : List Nat) : (l.map (fun z => (z, z))).map Prod.snd = l := by
  induction l with
  | nil => rfl
  | cons a l ih => rw [List.map_cons, List.map_cons, ih]

theorem sizesOf_checkEnd (st : CPState) : sizesOf (checkEnd st) = sizesOf st := by
  cases st with
  | nil => rfl
  | cons p t =>
    obtain ⟨c, z⟩ := p
    by_cases h : c = z
    · rw [sizesOf_checkEnd_of_head h]
      exact map_snd_diag _
    · rw [show checkEnd ((c, z) :: t) = (c, z) :: t from by simp [checkEnd, h]]

theorem cpPlusIs_begin_sizes (sizes : List Nat) (hne : sizes ≠ []) (k : Nat) :
    sizesOf (cpPlusIs (cpBegin sizes) (k : Int)) = sizes := by
  have hrne : sizes.reverse ≠ [] := by
    intro h
    exact hne (by simpa using congrArg List.reverse h)
  unfold cpPlusIs
  rw [sizesOf_checkEnd, reverse_cpBegin]
  obtain ⟨h1, _, _⟩ := plusRev_zeros sizes.reverse k hrne
  unfold sizesOf
  rw [List.map_reverse, h1, List.reverse_reverse]

/-- C3 counterexample: over two sequences of size 2, incrementing the last
valid combination `(1, 1)` leaves dimension 1 at its end position 2, not at
its begin position 0 as the claim states. -/
theorem claim_C3_counterexample :
    cpIncrement [(1, 2), (1, 2)] = [(2, 2), (2, 2)] ∧
    (cpIncrement [(1, 2), (1, 2)]).get? 1 ≠ some (0, 2) := by
  decide

/-- C3 amended: when increment (or a signed jump) carries past the last valid
combination, the resulting state is the all-end state — every dimension's
cursor equals its end, i.e. the `_iterator` tuple equals the `_end` tuple —
and `checkEnd` canonicalizes any state whose dimension-0 cursor equals its
end to exactly that all-end state. -/
theorem claim_C3_terminal_state (sizes : List Nat) (hlen : 2 ≤ sizes.length)
    (hpos : ∀ s ∈ sizes, 0 < s) :
    cpIncrement (cpLast sizes) = cpEnd sizes ∧
    cpPlusIs (cpBegin sizes) ((sizes.prod : Nat) : Int) = cpEnd sizes ∧
    (∀ c z t, sizesOf ((c, z) :: t) = sizes → c = z →
      checkEnd ((c, z) :: t) = cpEnd sizes) := by
  have hne : sizes ≠ [] := by
    intro h
    rw [h] at hlen
    simp at hlen
  refine ⟨?_, cpPlusIs_begin_prod sizes hpos hne, ?_⟩
  · refine cpIncrement_top (cpLast_valid hpos) (sizesOf_cpLast sizes) ?_
      (valN_cpLast sizes hpos)
    intro h
    exact hne (List.map_eq_nil_iff.mp h)
  · intro c z t hsz hcz
    rw [sizesOf_checkEnd_of_head hcz, hsz]
    rfl

/-- Witness for the amended C3 at sizes `[2, 3]`. -/
theorem claim_C3_witness :
    (2 ≤ ([2, 3] : List Nat).length ∧ (∀ s ∈ ([2, 3] : List Nat), 0 < s)) ∧
    (cpIncrement (cpLast [2, 3]) = cpEnd [2, 3] ∧
     cpPlusIs (cpBegin [2, 3]) ((([2, 3] : List Nat).prod : Nat) : Int) = cpEnd [2, 3] ∧
     (∀ c z t, sizesOf ((c, z) :: t) = [2, 3] → c = z →
        checkEnd ((c, z) :: t) = cpEnd [2, 3])) :=
  ⟨⟨by decide, by decide⟩, claim_C3_terminal_state [2, 3] (by decide) (by decide)⟩

/-- C4 counterexample: over sizes `[2, 2]`, advancing begin by `k = 1` and
computing the distance back to begin yields 0 (the product of the
per-dimension offsets), not 1. -/
theorem claim_C4_counterexample :
    cpDifference (cpPlusIs (cpBegin [2, 2]) (1 : Int)) (cpBegin [2, 2]) = 0 ∧
    cpDifference (cpPlusIs (cpBegin [2, 2]) (1 : Int)) (cpBegin [2, 2]) ≠ 1 := by
  decide

/-- C4 amended: the distance from begin to end is `∏ sᵢ`, and advancing the
begin cursor by `k` lands on the `k`-th lexicographic tuple (the end cursor
at `k = ∏ sᵢ`); but the distance computed back to begin is the product of
the per-dimension distances — the product of `k`'s mixed-radix digits — which
differs from `k` in general. -/
theorem claim_C4_distance (sizes : List Nat) (hlen : 2 ≤ sizes.length)
    (hpos : ∀ s ∈ sizes, 0 < s) (k : Nat) (hk : k ≤ sizes.prod) :
    cpDifference (cpEnd sizes) (cpBegin sizes) = (sizes.prod : Int) ∧
    (cpPlusIs (cpBegin sizes) (k : Int)).map Prod.fst =
      (if k = sizes.prod then sizes else unrank sizes k) ∧
    cpDifference (cpPlusIs (cpBegin sizes) (k : Int)) (cpBegin sizes) =
      (((if k = sizes.prod then sizes else unrank sizes k).map
        (fun c : Nat => (c : Int))).prod) := by
  have hne : sizes ≠ [] := by
    intro h
    rw [h] at hlen
    simp at hlen
  have hland : (cpPlusIs (cpBegin sizes) (k : Int)).map Prod.fst =
      (if k = sizes.prod then sizes else unrank sizes k) := by
    by_cases hkp : k = sizes.prod
    · rw [if_pos hkp, hkp, cpPlusIs_begin_prod sizes hpos hne, map_fst_cpEnd]
    · rw [if_neg hkp, cpPlusIs_begin_lt sizes hpos hne k (by omega)]
  refine ⟨cpDifference_end_begin sizes, hland, ?_⟩
  rw [cpDifference_to_begin _ sizes (cpPlusIs_begin_sizes sizes hne k), hland]

/-- Witness for the amended C4 at sizes `[2, 3]`, `k = 4`. -/
theorem claim_C4_witness :
    (2 ≤ ([2, 3] : List Nat).length ∧ (∀ s ∈ ([2, 3] : List Nat), 0 < s) ∧
      4 ≤ ([2, 3] : List Nat).prod) ∧
    (cpDifference (cpEnd [2, 3]) (cpBegin [2, 3]) = (([2, 3] : List Nat).prod : Int) ∧
     (cpPlusIs (cpBegin [2, 3]) ((4 : Nat) : Int)).map Prod.fst =
       (if 4 = ([2, 3] : List Nat).prod then [2, 3] else unrank [2, 3] 4) ∧
     cpDifference (cpPlusIs (cpBegin [2, 3]) ((4 : Nat) : Int)) (cpBegin [2, 3]) =
       (((if 4 = ([2, 3] : List Nat).prod then [2, 3] else unrank [2, 3] 4).map
         (fun c : Nat => (c : Int))).prod)) :=
  ⟨⟨by decide, by decide, by decide⟩,
    claim_C4_distance [2, 3] (by decide) (by decide) 4 (by decide)⟩

/-! ## Join iterator lemmas: correspondence of the two generations -/

theorem findNext_mk {α β κ : Type _} (A : List α) (B : List β) (selA : α → κ)
    (selB : β → κ) (lt : κ → κ → Bool) (iA iB : Nat) :
    findNext A B selA selB lt ⟨iA, iB⟩ =
      findNextAux A B selA selB lt (A.length - iA) iA iB := rfl

theorem legacyFindNext_mk {α β κ : Type _} (A : List α) (B : List β) (selA : α → κ)
    (selB : β → κ) (lt : κ → κ → Bool) (iA iB iBF : Nat) :
    legacyFindNext A B selA selB lt ⟨iA, iB, iBF⟩ =
      legacyFindNextAux A B selA selB lt (A.length - iA) iA iB iBF := rfl

/-- The two generations' `findNext` search the same way: they stop at the
same A position, and on a hit the legacy cursor records the match in
`_iterBFound` with `_iterB` one past it, while on exhaustion the legacy
`_iterBFound` is untouched. -/
theorem findNext_corr {α β κ : Type _} (A : List α) (B : List β) (selA : α → κ)
    (selB : β → κ) (lt : κ → κ → Bool) :
    ∀ fuel iA iB iBF, A.length ≤ fuel + iA →
      (legacyFindNextAux A B selA selB lt fuel iA iB iBF).iterA =
        (findNextAux A B selA selB lt fuel iA iB).iterA ∧
      (if (findNextAux A B selA selB lt fuel iA iB).iterA < A.length then
        (legacyFindNextAux A B selA selB lt fuel iA iB iBF).iterB =
            (findNextAux A B selA selB lt fuel iA iB).iterB + 1 ∧
          (legacyFindNextAux A B selA selB lt fuel iA iB iBF).iterBFound =
            (findNextAux A B selA selB lt fuel iA iB).iterB
       else
        (legacyFindNextAux A B selA selB lt fuel iA iB iBF).iterB =
            (findNextAux A B selA selB lt fuel iA iB).iterB ∧
          (legacyFindNextAux A B selA selB lt fuel iA iB iBF).iterBFound = iBF) := by
  intro fuel
  induction fuel with
  | zero =>
    intro iA iB iBF hle
    have hno : ¬ iA < A.length := by omega
    simp only [findNextAux, legacyFindNextAux]
    rw [if_neg hno]
    simp
  | succ fuel ih =>
    intro iA iB iBF hle
    by_cases h : iA < A.length
    · simp only [findNextAux, legacyFindNextAux]
      rw [dif_pos h, dif_pos h]
      by_cases hB : lowerBoundFrom selB lt B iB (selA (A.get ⟨iA, h⟩)) < B.length
      · rw [dif_pos hB, dif_pos hB]
        by_cases hmatch :
            (!(lt (selA (A.get ⟨iA, h⟩))
              (selB (B.get ⟨lowerBoundFrom selB lt B iB (selA (A.get ⟨iA, h⟩)), hB⟩)))) = true
        · rw [if_pos hmatch, if_pos hmatch]
          rw [if_pos h]
          simp
        · rw [if_neg hmatch, if_neg hmatch]
          exact ih (iA + 1) 0 iBF (by omega)
      · rw [dif_neg hB, dif_neg hB]
        exact ih (iA + 1) 0 iBF (by omega)
    · simp only [findNextAux, legacyFindNextAux]
      rw [dif_neg h, dif_neg h, if_neg h]
      exact ⟨rfl, rfl, rfl⟩

/-- With an empty B, both searches run A to exhaustion. -/
theorem findNextAux_nilB {α β κ : Type _} (A : List α) (selA : α → κ)
    (selB : β → κ) (lt : κ → κ → Bool) :
    ∀ fuel iA iB, A.length ≤ fuel + iA → iA ≤ A.length →
      (findNextAux A ([] : List β) selA selB lt fuel iA iB).iterA = A.length := by
  intro fuel
  induction fuel with
  | zero =>
    intro iA iB hle hle2
    simp only [findNextAux]
    omega
  | succ fuel ih =>
    intro iA iB hle hle2
    by_cases h : iA < A.length
    · simp only [findNextAux]
      rw [dif_pos h]
      have hB : ¬ lowerBoundFrom selB lt ([] : List β) iB (selA (A.get ⟨iA, h⟩)) <
          ([] : List β).length := by
        simp
      rw [dif_neg hB]
      exact ih (iA + 1) 0 (by omega) (by omega)
    · simp only [findNextAux]
      rw [dif_neg h]
      show iA = A.length
      omega

theorem legacyFindNextAux_nilB {α β κ : Type _} (A : List α) (selA : α → κ)
    (selB : β → κ) (lt : κ → κ → Bool) :
    ∀ fuel iA iB iBF, A.length ≤ fuel + iA → iA ≤ A.length →
      (legacyFindNextAux A ([] : List β) selA selB lt fuel iA iB iBF).iterA = A.length := by
  intro fuel
  induction fuel with
  | zero =>
    intro iA iB iBF hle hle2
    simp only [legacyFindNextAux]
    omega
  | succ fuel ih =>
    intro iA iB iBF hle hle2
    by_cases h : iA < A.length
    · simp only [legacyFindNextAux]
      rw [dif_pos h]
      have hB : ¬ lowerBoundFrom selB lt ([] : List β) iB (selA (A.get ⟨iA, h⟩)) <
          ([] : List β).length := by
        simp
      rw [dif_neg hB]
      exact ih (iA + 1) 0 iBF (by omega) (by omega)
    · simp only [legacyFindNextAux]
      rw [dif_neg h]
      show iA = A.length
      omega

theorem join_sim_init {α β κ : Type _} (A : List α) (B : List β) (selA : α → κ)
    (selB : β → κ) (lt : κ → κ → Bool) :
    JoinSim A B (joinInit A B selA selB lt) (legacyInit A B selA selB lt) := by
  unfold joinInit legacyInit
  by_cases hAB : A.length = 0 ∨ B.length = 0
  · rw [if_pos hAB, if_pos hAB]
    refine ⟨rfl, fun hA => ⟨rfl, ?_⟩⟩
    rcases hAB with h | h
    · exfalso
      have : (⟨0, 0⟩ : JoinState).iterA = 0 := rfl
      omega
    · exact Or.inr (List.length_eq_zero.mp h)
  · rw [if_neg hAB, if_neg hAB]
    rw [findNext_mk, legacyFindNext_mk]
    obtain ⟨h1, h2⟩ := findNext_corr A B selA selB lt (A.length - 0) 0 0 0 (by omega)
    refine ⟨h1.symm, fun hact => ?_⟩
    rw [if_pos hact] at h2
    exact ⟨h2.2.symm, Or.inl h2.1⟩

theorem joinIncrement_mk {α β κ : Type _} (A : List α) (B : List β) (selA : α → κ)
    (selB : β → κ) (lt : κ → κ → Bool) (st : JoinState) :
    joinIncrement A B selA selB lt st =
      findNextAux A B selA selB lt (A.length - st.iterA) st.iterA (st.iterB + 1) := rfl

theorem legacyIncrement_mk {α β κ : Type _} (A : List α) (B : List β) (selA : α → κ)
    (selB : β → κ) (lt : κ → κ → Bool) (st : LegacyJoinState) :
    legacyIncrement A B selA selB lt st =
      legacyFindNextAux A B selA selB lt (A.length - st.iterA) st.iterA st.iterB st.iterBFound := rfl

theorem join_sim_step {α β κ : Type _} (A : List α) (B : List β) (selA : α → κ)
    (selB : β → κ) (lt : κ → κ → Bool) {n : JoinState} {l : LegacyJoinState}
    (hsim : JoinSim A B n l) :
    JoinSim A B (joinIncrement A B selA selB lt n) (legacyIncrement A B selA selB lt l) := by
  obtain ⟨hA, hact⟩ := hsim
  rw [joinIncrement_mk, legacyIncrement_mk, ← hA]
  by_cases h : n.iterA < A.length
  · obtain ⟨hBF, hdisj⟩ := hact h
    rcases hdisj with hB1 | hBnil
    · rw [hB1, ← hBF]
      obtain ⟨h1, h2⟩ :=
        findNext_corr A B selA selB lt (A.length - n.iterA) n.iterA (n.iterB + 1) n.iterB
          (by omega)
      refine ⟨h1.symm, fun hact2 => ?_⟩
      rw [if_pos hact2] at h2
      exact ⟨h2.2.symm, Or.inl h2.1⟩
    · subst hBnil
      have hnew := findNextAux_nilB A selA selB lt (A.length - n.iterA) n.iterA (n.iterB + 1)
        (by omega) (by omega)
      have hleg := legacyFindNextAux_nilB A selA selB lt (A.length - n.iterA) n.iterA
        l.iterB l.iterBFound (by omega) (by omega)
      refine ⟨by rw [hnew, hleg], fun hact2 => ?_⟩
      rw [hnew] at hact2
      omega
  · have hf : A.length - n.iterA = 0 := by omega
    rw [hf]
    simp only [findNextAux, legacyFindNextAux]
    refine ⟨rfl, fun hact2 => ?_⟩
    exfalso
    have hred : (⟨n.iterA, n.iterB + 1⟩ : JoinState).iterA = n.iterA := rfl
    omega

theorem joinRun_succ {α β κ : Type _} (A : List α) (B : List β) (selA : α → κ)
    (selB : β → κ) (lt : κ → κ → Bool) (k : Nat) :
    joinRun A B selA selB lt (k + 1) =
      joinIncrement A B selA selB lt (joinRun A B selA selB lt k) := by
  unfold joinRun
  rw [Function.iterate_succ_apply']

theorem legacyRun_succ {α β κ : Type _} (A : List α) (B : List β) (selA : α → κ)
    (selB : β → κ) (lt : κ → κ → Bool) (k : Nat) :
    legacyRun A B selA selB lt (k + 1) =
      legacyIncrement A B selA selB lt (legacyRun A B selA selB lt k) := by
  unfold legacyRun
  rw [Function.iterate_succ_apply']

theorem join_sim_run {α β κ : Type _} (A : List α) (B : List β) (selA : α → κ)
    (selB : β → κ) (lt : κ → κ → Bool) (k : Nat) :
    JoinSim A B (joinRun A B selA selB lt k) (legacyRun A B selA selB lt k) := by
  induction k with
  | zero => exact join_sim_init A B selA selB lt
  | succ k ih =>
    rw [joinRun_succ, legacyRun_succ]
    exact join_sim_step A B selA selB lt ih

/-! ## Claim theorems: join cursors -/

/-- C10: over every pair of ranges, selectors and combiner, the legacy join
iterator and the serial path of the newer join iterator agree: after any
number `k` of increments both sit at the same A position (hence reach
exhaustion after the same number of increments, and compare equal to their
end cursors simultaneously), and their dereferences produce the same combined
result. -/
theorem claim_C10_generations_equivalent {α β κ γ : Type _} (A : List α)
    (B : List β) (selA : α → κ) (selB : β → κ) (lt : κ → κ → Bool)
    (res : α → β → γ) (k : Nat) :
    (joinRun A B selA selB lt k).iterA = (legacyRun A B selA selB lt k).iterA ∧
    joinDeref A B res (joinRun A B selA selB lt k) =
      legacyDeref A B res (legacyRun A B selA selB lt k) ∧
    joinEq (joinRun A B selA selB lt k) (joinEndCursor A B) =
      legacyEq (legacyRun A B selA selB lt k) ⟨A.length, B.length, B.length⟩ := by
  obtain ⟨hA, hact⟩ := join_sim_run A B selA selB lt k
  refine ⟨hA, ?_, ?_⟩
  · by_cases h : (joinRun A B selA selB lt k).iterA < A.length
    · obtain ⟨hBF, _⟩ := hact h
      unfold joinDeref legacyDeref
      rw [hA, hBF]
    · have hn : A.get? (joinRun A B selA selB lt k).iterA = none :=
        List.get?_eq_none.mpr (by omega)
      have hl : A.get? (legacyRun A B selA selB lt k).iterA = none := by
        rw [← hA]
        exact hn
      unfold joinDeref legacyDeref
      rw [hn, hl]
  · unfold joinEq legacyEq joinEndCursor
    rw [hA]

/-- C1 counterexample: over A = [1,2,2,3] and the sorted B, after the three
claimed results have been produced and three increments taken, the cursor is
NOT equal to the end cursor — the next dereference yields a fourth result
(2, "y"), because A's second element 2 joins B's duplicates again. -/
theorem claim_C1_counterexample :
    joinEq (sampleRun 3) (joinEndCursor sampleA sampleB) = false ∧
    joinDeref sampleA sampleB sampleRes (sampleRun 3) = some (2, "y") := by
  decide

/-- C1 amended: the traversal yields the five results (1,"x"), (2,"y"),
(2,"z"), (2,"y"), (2,"z") — each of A's two 2-elements joins both B
duplicates — and only after the fifth increment does the cursor equal the end
cursor; the intermediate `(iterA, iterB)` states document that each increment
re-searches B from just past the last matched B position with the unchanged
A key before advancing A. -/
theorem claim_C1_sample_traversal :
    ((List.range 5).map (fun k => joinDeref sampleA sampleB sampleRes (sampleRun k))) =
      [some (1, "x"), some (2, "y"), some (2, "z"), some (2, "y"), some (2, "z")] ∧
    ((List.range 5).map (fun k => joinEq (sampleRun k) (joinEndCursor sampleA sampleB))) =
      [false, false, false, false, false] ∧
    joinEq (sampleRun 5) (joinEndCursor sampleA sampleB) = true ∧
    ((List.range 6).map (fun k => ((sampleRun k).iterA, (sampleRun k).iterB))) =
      [(0, 0), (1, 1), (1, 2), (2, 1), (2, 2), (4, 0)] := by
  decide

/-- C5 (code-bug evidence): the cartesian-product constructor performs no
canonicalization, so over sizes [2, 0] — an empty dimension next to a
nonempty one — the begin cursor does not compare equal to the end cursor;
equality holds only when every dimension is empty, as with sizes [0, 0]. -/
theorem claim_C5_empty_dimension :
    cpEq (cpBegin [2, 0]) (cpEnd [2, 0]) = false ∧
    cpEq (cpBegin [0, 0]) (cpEnd [0, 0]) = true := by
  decide

/-- C6 (code-bug evidence): with A = [0] nonempty and B empty, the join
constructor's early return leaves the begin cursor at A's begin, unequal to
the end cursor, in both generations; the A-empty case does compare equal. -/
theorem claim_C6_empty_inputs :
    joinEq (joinInit ([0] : List Nat) ([] : List Nat) id id natLt)
      (joinEndCursor ([0] : List Nat) ([] : List Nat)) = false ∧
    legacyEq (legacyInit ([0] : List Nat) ([] : List Nat) id id natLt)
      ⟨([0] : List Nat).length, 0, 0⟩ = false ∧
    joinEq (joinInit ([] : List Nat) ([5] : List Nat) id id natLt)
      (joinEndCursor ([] : List Nat) ([5] : List Nat)) = true := by
  decide

/-- C7 (code-bug evidence): with A = [0] nonempty and B empty (trivially
sorted), immediately after construction the cursor is not exhausted
(`iterA < endA`) yet its stored matched-B position refers to no B element —
the data-model invariant is violated at an externally observable position. -/
theorem claim_C7_invariant_violation :
    (joinInit ([0] : List Nat) ([] : List Nat) id id natLt).iterA <
      ([0] : List Nat).length ∧
    List.get? ([] : List Nat)
      (joinInit ([0] : List Nat) ([] : List Nat) id id natLt).iterB = none := by
  decide

/-- C8 counterexample: two exclusion-filter cursors independently constructed
at the same position 0 over the same range (end position 2) compare unequal —
`operator==` tests this cursor's position against the other's end, not
position equality. -/
theorem claim_C8_counterexample :
    exceptEq ⟨0, 2⟩ ⟨0, 2⟩ = false := by
  decide

/-- C8 amended: the cartesian-product cursor's equality is full position
equality (true iff every dimension's current position matches), but the
exclusion-filter cursor's `==`/`!=` compare this cursor's position with the
OTHER cursor's end, so they only test exhaustion; likewise the join cursor
compares only the A position. -/
theorem claim_C8_equality_semantics :
    (∀ a b : CPState, cpEq a b = true ↔ a.map Prod.fst = b.map Prod.fst) ∧
    (∀ x y : ExceptIt, exceptEq x y = true ↔ x.iter = y.endPos) ∧
    (∀ x y : ExceptIt, exceptNe x y = true ↔ x.iter ≠ y.endPos) ∧
    (∀ a b : JoinState, joinEq a b = true ↔ a.iterA = b.iterA) := by
  refine ⟨?_, ?_, ?_, ?_⟩
  · intro a b
    unfold cpEq
    exact beq_iff_eq
  · intro x y
    unfold exceptEq exceptNe
    simp
  · intro x y
    unfold exceptNe
    simp
  · intro a b
    unfold joinEq
    exact beq_iff_eq

end LzSpec
